import Mathlib

/-
Verification of the CSP crossword solver in src/generate.py (class
CrosswordCreator) against its natural-language specification.

The Crossword / Variable classes (crossword.py) are imported by generate.py
but are not part of src/; the puzzle model below is therefore modelled from
the spec (sections 3 and 4.1): a slot is identified by row, column, direction
and length, and the puzzle owns a vocabulary plus an overlap table over
ordered pairs of distinct slots, from which the neighbor relation is derived.

Python specifics and their shallow embedding:
- set / dict iteration order is represented by lists; dict insertion-order
  semantics (update-in-place keeps position, new keys append) are modelled
  explicitly;
- in-place mutation of self.domains, of the queue dict and of the assignment
  dict is modelled by explicit state passing (functions return the new state);
- the unbounded while loop of ac3 and the recursion of backtrack take a fuel
  argument; running out of fuel is reported as a distinguished outcome that
  the real program (which simply keeps running) never exhibits;
- KeyError (del on a missing dict key) and IndexError (indexing an empty
  list) are modelled as error outcomes of an Except monad.
-/

set_option maxRecDepth 8000

namespace CW

/-- Direction of a slot (modelled from the spec, section 3). -/
inductive Dir where
  | across
  | down
deriving DecidableEq

/-- A slot ("Variable" in crossword.py, modelled from the spec, section 3):
identified by starting row and column, a direction, and a required length.
Two slots are distinct iff any component differs. -/
structure Var where
  row : Nat
  col : Nat
  dir : Dir
  length : Nat
deriving DecidableEq

/-- A candidate word, as a list of characters. -/
abbrev Word := List Char

/-- Puzzle model (modelled from the spec, sections 3 and 4.1, since
crossword.py is not under src/). overlapPairs lists every ordered pair of
distinct slots together with its overlap (none when the slots share no grid
cell), in the overlap dictionary's insertion order; the spec leaves that
order unspecified, so it is a parameter of the model. -/
structure Puzzle where
  vars : List Var
  words : List Word
  overlapPairs : List ((Var × Var) × Option (Nat × Nat))

/-- Lookup in an association list of ordered slot pairs (the overlap table
and the arc queue both use this shape). -/
def pairsLookup (x y : Var) : List ((Var × Var) × Option (Nat × Nat)) → Option (Nat × Nat)
  | [] => none
  | (k, v) :: rest => if k = (x, y) then v else pairsLookup x y rest

/-- self.crossword.overlaps[x, y]. A pair absent from the table is treated
as having no overlap (in the source the table holds every ordered pair of
distinct slots, so the lookup never fails there). -/
def overlaps (c : Puzzle) (x y : Var) : Option (Nat × Nat) :=
  pairsLookup x y c.overlapPairs

/-- self.crossword.neighbors(x): the slots with a defined overlap with x
(spec section 3). Python returns a set; the model keeps the puzzle's
variable order. -/
def neighbors (c : Puzzle) (x : Var) : List Var :=
  c.vars.filter (fun v => !(decide (v = x)) && (overlaps c x v).isSome)

/-- The domain store: each slot's current list of candidate words. -/
abbrev Domains := Var → List Word

/-- Pointwise update of the domain store (self.domains[x] = ws). -/
def updD (d : Domains) (x : Var) (ws : List Word) : Domains :=
  fun v => if v = x then ws else d v

/-- Character of a word at an index (w[i] in Python). Out-of-range access
raises IndexError in Python; the claims only exercise in-range accesses and
the model totalises with a default character. -/
def charAt (w : Word) (i : Nat) : Char :=
  w.getD i ' '

/-- Membership of a word in a list of words (value in self.domains[v]). -/
def wElem (w : Word) : List Word → Bool
  | [] => false
  | w2 :: rest => if w2 = w then true else wElem w rest

/-- Membership of a slot in a list of slots. -/
def vElem (v : Var) : List Var → Bool
  | [] => false
  | u :: rest => if u = v then true else vElem v rest

/-- Lines 96-113 of generate.py: for every variable, collect the words whose
length differs from the variable's length in a remove list, then remove
them. -/
def enforce_node_consistency (c : Puzzle) (d : Domains) : Domains :=
  fun v =>
    if v ∈ c.vars then
      let rem := (d v).filter (fun w => !(w.length == v.length))
      (d v).filter (fun w => !(wElem w rem))
    else d v

/-- Lines 134-143 of generate.py: the inner loop of revise scans y's domain
for a value matching x's value at the overlap indices; the removable flag
together with break computes exactly this. -/
def hasMatch (xv : Word) (xi yi : Nat) : List Word → Bool
  | [] => false
  | yv :: rest => if charAt xv xi = charAt yv yi then true else hasMatch xv xi yi rest

/-- Lines 115-153 of generate.py: make x arc consistent with y. Returns the
updated domain store together with the revised flag. -/
def revise (c : Puzzle) (d : Domains) (x y : Var) : Domains × Bool :=
  match overlaps c x y with
  | none => (d, false)
  | some idx =>
    let rem := (d x).filter (fun xv => !(hasMatch xv idx.1 idx.2 (d y)))
    (updD d x ((d x).filter (fun xv => !(wElem xv rem))), !rem.isEmpty)

/-- The arc queue: a Python dict keyed by ordered slot pairs. Only the keys
are ever read back by the source; the values (overlap entries) are stored
because the source stores them. -/
abbrev Queue := List ((Var × Var) × Option (Nat × Nat))

/-- Python dict assignment queue[x, n] = overlap: when the key is already
present its value is updated in place (the key keeps its position);
otherwise the pair is appended at the end. -/
def qInsert (q : Queue) (k : Var × Var) (v : Option (Nat × Nat)) : Queue :=
  if (pairsLookup k.1 k.2 q).isSome then
    q.map (fun kv => if kv.1 = k then (k, v) else kv)
  else q ++ [(k, v)]

/-- Lines 172-186 of generate.py: the while loop of ac3, popping the first
key of the queue dict. The fuel argument stands for the unbounded
iteration; the Bool component of the result is none when fuel runs out.
The returned queue is the final state of the (caller-visible) queue dict. -/
def ac3Loop (c : Puzzle) : Nat → Domains → Queue → Domains × Queue × Option Bool
  | 0, d, q => (d, q, none)
  | Nat.succ fuel, d, q =>
    match q with
    | [] => (d, [], some true)
    | (xy, _) :: rest =>
      let r := revise c d xy.1 xy.2
      if r.2 then
        if (r.1 xy.1).isEmpty then (r.1, rest, some false)
        else
          ac3Loop c fuel r.1
            (((neighbors c xy.1).filter (fun n => !(decide (n = xy.2)))).foldl
              (fun acc n => qInsert acc (xy.1, n) (overlaps c xy.1 n)) rest)
      else ac3Loop c fuel r.1 rest

/-- Lines 155-186 of generate.py: ac3 with the optional arcs argument; when
arcs is none the initial queue is a copy of the whole overlap table. -/
def ac3 (c : Puzzle) (fuel : Nat) (d : Domains) (arcs : Option Queue) :
    Domains × Queue × Option Bool :=
  match arcs with
  | none => ac3Loop c fuel d c.overlapPairs
  | some q => ac3Loop c fuel d q

/-- The assignment: a Python dict from slots to words, in insertion order. -/
abbrev Assignment := List (Var × Word)

/-- assignment.get-style lookup. -/
def aLookup (a : Assignment) (k : Var) : Option Word :=
  match a with
  | [] => none
  | kv :: rest => if kv.1 = k then some kv.2 else aLookup rest k

/-- variable in assignment. -/
def aMem (a : Assignment) (k : Var) : Bool :=
  (aLookup a k).isSome

/-- assignment[k] = w (dict semantics: an existing key keeps its position,
a new key is appended). -/
def aInsert (a : Assignment) (k : Var) (w : Word) : Assignment :=
  if aMem a k then a.map (fun kv => if kv.1 = k then (k, w) else kv)
  else a ++ [(k, w)]

/-- Removal of a key from the assignment, keeping the order of the rest. -/
def aErase (a : Assignment) (k : Var) : Assignment :=
  a.filter (fun kv => !(decide (kv.1 = k)))

/-- Error outcomes of the embedded program. keyError and indexError model
the Python exceptions of the same names; outOfFuel marks exhausted fuel and
never corresponds to a source behavior. -/
inductive PyErr where
  | keyError
  | indexError
  | outOfFuel
deriving DecidableEq

/-- del assignment[k]: raises KeyError when the key is absent. -/
def pyDel (a : Assignment) (k : Var) : Except PyErr Assignment :=
  if aMem a k then .ok (aErase a k) else .error .keyError

/-- Lines 188-196 of generate.py: set equality between the assignment's keys
and the puzzle's variable set. -/
def assignment_complete (c : Puzzle) (a : Assignment) : Bool :=
  (c.vars.all (fun v => aMem a v)) && (a.all (fun kv => vElem kv.1 c.vars))

/-- Lines 198-225 of generate.py: pairwise distinctness, overlap agreement
and length check over the (possibly partial) assignment. -/
def consistent (c : Puzzle) (a : Assignment) : Bool :=
  a.all (fun xkv =>
    (a.all (fun ykv =>
      if xkv.1 = ykv.1 then true
      else if xkv.2 = ykv.2 then false
      else
        match overlaps c xkv.1 ykv.1 with
        | some idx => decide (charAt xkv.2 idx.1 = charAt ykv.2 idx.2)
        | none => true))
    && (xkv.2.length == xkv.1.length))

/-- sums[w] += 1 on the association list of elimination counts. -/
def bump (sums : List (Word × Nat)) (w : Word) : List (Word × Nat) :=
  sums.map (fun p => if p.1 = w then (p.1, p.2 + 1) else p)

/-- Stable insertion (after equal keys) for an ascending sort. -/
def insertAsc {α : Type} (key : α → Nat) (x : α) : List α → List α
  | [] => [x]
  | y :: ys => if key y ≤ key x then y :: insertAsc key x ys else x :: y :: ys

/-- Stable ascending sort by a Nat key, modelling Python's stable sorted. -/
def sortAsc {α : Type} (key : α → Nat) (l : List α) : List α :=
  l.foldl (fun acc x => insertAsc key x acc) []

/-- Stable insertion (after equal keys) for a descending sort. -/
def insertDesc {α : Type} (key : α → Nat) (x : α) : List α → List α
  | [] => [x]
  | y :: ys => if key x ≤ key y then y :: insertDesc key x ys else x :: y :: ys

/-- Stable descending sort by a Nat key (sorted with reverse=True). -/
def sortDesc {α : Type} (key : α → Nat) (l : List α) : List α :=
  l.foldl (fun acc x => insertDesc key x acc) []

/-- Lines 227-254 of generate.py: least-constraining-value ordering of the
domain of var. For each candidate, over every unassigned neighbor, add 1
when the candidate also sits in the neighbor's domain, plus 1 for each
neighbor word conflicting at the overlap indices; then sort ascending by
count (stably, as Python's sorted is stable). The source unpacks the
overlap unconditionally; for neighbors it is always defined, and the model
leaves the count unchanged otherwise. -/
def order_domain_values (c : Puzzle) (d : Domains) (var : Var) (a : Assignment) : List Word :=
  let sums0 : List (Word × Nat) := (d var).map (fun w => (w, 0))
  let sums := (d var).foldl (fun s w =>
    (neighbors c var).foldl (fun s2 nb =>
      if aMem a nb then s2
      else
        let s3 := if wElem w (d nb) then bump s2 w else s2
        match overlaps c var nb with
        | some idx => (d nb).foldl (fun s4 nw =>
            if charAt w idx.1 = charAt nw idx.2 then s4 else bump s4 w) s3
        | none => s3) s) sums0
  (sortAsc (fun p => p.2) sums).map (fun p => p.1)

/-- The loop at lines 305-307 of generate.py: find the first element of the
variable list equal to v. -/
def firstEq (v : Var) : List Var → Option Var
  | [] => none
  | u :: rest => if u = v then some u else firstEq v rest

/-- Lines 258-309 of generate.py: minimum-remaining-values selection with
degree tie-break; a tie on both is broken by random.choice, modelled by the
rnd parameter indexing into the tied list. none models the IndexError the
source would raise with no unassigned variable. -/
def select_unassigned_variable (c : Puzzle) (rnd : Nat) (a : Assignment) (d : Domains) :
    Option Var :=
  let entries : List (Var × Nat × Nat) :=
    (c.vars.filter (fun v => !(aMem a v))).map
      (fun v => (v, (d v).length, (neighbors c v).length))
  let sorted1 := sortAsc (fun e => e.2.1) entries
  match sorted1 with
  | [] => none
  | first :: _ =>
    let repeatsMrv := (sorted1.filter (fun e => e.2.1 == first.2.1)).length
    if repeatsMrv == 1 then some first.1
    else
      let sorted2 := sortDesc (fun e => e.2.2) (sorted1.take repeatsMrv)
      match sorted2 with
      | [] => none
      | f2 :: _ =>
        let repeatsDegree := (sorted2.filter (fun e => e.2.2 == f2.2.2)).map (fun e => e.1)
        if 1 < repeatsDegree.length then
          match repeatsDegree.get? (rnd % repeatsDegree.length) with
          | some v =>
            match firstEq v c.vars with
            | some u => some u
            | none => repeatsDegree.head?
          | none => repeatsDegree.head?
        else repeatsDegree.head?

/-- Lines 337-352 of generate.py: the inference step inside backtrack's value
loop. For each unassigned variable with a singleton domain, run ac3 seeded
with its arcs; on success bind it to each word of its (current) domain in
turn (so to the last one in iteration order); on failure del the - never
bound - key, which raises KeyError. -/
def inferLoop (c : Puzzle) (fuel : Nat) :
    List Var → Assignment → Domains → Except PyErr (Assignment × Domains)
  | [], a, d => .ok (a, d)
  | v :: rest, a, d =>
    if !(aMem a v) && (d v).length == 1 then
      let queue : Queue := (neighbors c v).map (fun n => ((v, n), overlaps c v n))
      let r := ac3 c fuel d (some queue)
      match r.2.2 with
      | some true => inferLoop c fuel rest ((r.1 v).foldl (fun a2 w => aInsert a2 v w) a) r.1
      | some false =>
        match pyDel a v with
        | .ok a2 => inferLoop c fuel rest a2 r.1
        | .error e => .error e
      | none => .error .outOfFuel
    else inferLoop c fuel rest a d

/-- Lines 331-360 of generate.py: the loop over the ordered candidate values
of the selected variable, parameterised by the recursive backtrack call bt.
A falsy recursion result (None, or a complete-but-empty assignment) undoes
the selected variable's binding and moves to the next candidate. -/
def valueLoopF (c : Puzzle) (fuel : Nat)
    (bt : Assignment → Domains → Except PyErr (Option Assignment × Assignment × Domains))
    (var : Var) :
    List Word → Assignment → Domains → Except PyErr (Option Assignment × Assignment × Domains)
  | [], a, d => .ok (none, a, d)
  | w :: ws, a, d =>
    let a1 := aInsert a var w
    if consistent c a1 then
      match inferLoop c fuel c.vars a1 d with
      | .error e => .error e
      | .ok (a2, d2) =>
        match bt a2 d2 with
        | .error e => .error e
        | .ok (res, a3, d3) =>
          match res with
          | some m =>
            if m.isEmpty then
              match pyDel a3 var with
              | .ok a4 => valueLoopF c fuel bt var ws a4 d3
              | .error e => .error e
            else .ok (some m, a3, d3)
          | none =>
            match pyDel a3 var with
            | .ok a4 => valueLoopF c fuel bt var ws a4 d3
            | .error e => .error e
    else
      match pyDel a1 var with
      | .ok a4 => valueLoopF c fuel bt var ws a4 d
      | .error e => .error e

/-- Lines 313-362 of generate.py: backtracking search. The result carries
the return value together with the final states of the assignment dict and
the domain store (both mutated in place in the source). Fuel bounds the
recursion depth; the source recursion is bounded by the number of slots, so
any sufficiently large fuel reproduces it. -/
def backtrack (c : Puzzle) (rnd : Nat) :
    Nat → Assignment → Domains → Except PyErr (Option Assignment × Assignment × Domains)
  | 0, _, _ => .error .outOfFuel
  | Nat.succ fuel, a, d =>
    if assignment_complete c a then .ok (some a, a, d)
    else
      match select_unassigned_variable c rnd a d with
      | none => .error .indexError
      | some var =>
        valueLoopF c (Nat.succ fuel) (backtrack c rnd fuel) var
          (order_domain_values c d var a) a d

/-- Lines 87-94 of generate.py: enforce node consistency, run ac3, then
backtrack on the empty assignment. The source discards the Boolean returned
by ac3 entirely; the model inspects it only to surface fuel exhaustion. -/
def solve (c : Puzzle) (rnd : Nat) (fuel : Nat) :
    Except PyErr (Option Assignment × Assignment × Domains) :=
  let d1 := enforce_node_consistency c (fun _ => c.words)
  let r := ac3 c fuel d1 none
  match r.2.2 with
  | none => .error .outOfFuel
  | some _ => backtrack c rnd fuel [] r.1

/-- Projection of solve's outcome to the caller-visible return value. -/
def solveResult (c : Puzzle) (rnd : Nat) (fuel : Nat) : Except PyErr (Option Assignment) :=
  (solve c rnd fuel).map (fun t => t.1)

/-- Projection of a backtrack outcome to the return value and the final
assignment state, dropping the (function-typed) domain store. -/
def btResult (e : Except PyErr (Option Assignment × Assignment × Domains)) :
    Except PyErr (Option Assignment × Assignment) :=
  e.map (fun t => (t.1, t.2.1))

/-- Slot of the one-slot length-4 scenario (spec section 8, Scenario A). -/
def vFour : Var := ⟨0, 0, Dir.across, 4⟩

def wFOUR : Word := ['F', 'O', 'U', 'R']

def wFIVE : Word := ['F', 'I', 'V', 'E']

/-- Scenario A puzzle with vocabulary iteration order FOUR, FIVE. -/
def pOneA : Puzzle := ⟨[vFour], [wFOUR, wFIVE], []⟩

/-- Scenario A puzzle with vocabulary iteration order FIVE, FOUR. -/
def pOneB : Puzzle := ⟨[vFour], [wFIVE, wFOUR], []⟩

def vX2 : Var := ⟨0, 0, Dir.across, 2⟩

def vY2 : Var := ⟨1, 0, Dir.across, 3⟩

def wab : Word := ['a', 'b']

def wcde : Word := ['c', 'd', 'e']

/-- A puzzle whose initial ac3 run empties a domain: the two slots overlap at
their first characters, but the only length-2 word starts with a and the only
length-3 word starts with c. -/
def pFail : Puzzle :=
  ⟨[vX2, vY2], [wab, wcde], [((vX2, vY2), some (0, 0)), ((vY2, vX2), some (0, 0))]⟩

def dFail : Domains := enforce_node_consistency pFail (fun _ => pFail.words)

def vXq : Var := ⟨0, 0, Dir.across, 2⟩

def vYq : Var := ⟨0, 1, Dir.down, 2⟩

def wcd : Word := ['c', 'd']

/-- Two overlapping slots used to exercise the inference step of backtrack. -/
def pKey : Puzzle :=
  ⟨[vXq, vYq], [wab, wcd], [((vXq, vYq), some (0, 0)), ((vYq, vXq), some (0, 0))]⟩

/-- A domain store in which the second slot has the singleton domain cd,
unsupported by the first slot's domain ab at the shared first character. -/
def dKey : Domains := fun v => if v = vXq then [wab] else if v = vYq then [wcd] else []

def vX3 : Var := ⟨0, 0, Dir.across, 2⟩

def vY3 : Var := ⟨1, 0, Dir.across, 2⟩

def vZ3 : Var := ⟨2, 0, Dir.across, 2⟩

def wax : Word := ['a', 'x']

def wza : Word := ['z', 'a']

def wzb : Word := ['z', 'b']

/-- Three slots: the first overlaps the second (both first characters) and the
third (both second characters); the second and third do not overlap. -/
def pRest : Puzzle :=
  ⟨[vX3, vY3, vZ3], [wax, wab, wza, wzb],
    [((vX3, vY3), some (0, 0)), ((vY3, vX3), some (0, 0)),
     ((vX3, vZ3), some (1, 1)), ((vZ3, vX3), some (1, 1)),
     ((vY3, vZ3), none), ((vZ3, vY3), none)]⟩

/-- A domain store under which backtrack binds the second slot by inference,
then fails on the third slot and returns None with the inference binding
still in place. -/
def dRest : Domains :=
  fun v =>
    if v = vX3 then [wax]
    else if v = vY3 then [wab]
    else if v = vZ3 then [wza, wzb]
    else []

def vA4 : Var := ⟨0, 0, Dir.across, 2⟩

def vB4 : Var := ⟨1, 0, Dir.across, 3⟩

def vC4 : Var := ⟨2, 0, Dir.across, 4⟩

def wpa : Word := ['p', 'a']

def wqb : Word := ['q', 'b']

def wpxm : Word := ['p', 'x', 'm']

def wqym : Word := ['q', 'y', 'm']

def wxzzz : Word := ['x', 'z', 'z', 'z']

/-- A puzzle on which ac3 is not idempotent: the first run, processing the
arc from the second to the third slot last, shrinks the second slot's domain
but re-enqueues only arcs whose first component is the second slot, leaving
the first slot's word qb without support; the second run removes it. -/
def pIdem : Puzzle :=
  ⟨[vA4, vB4, vC4], [wpa, wqb, wpxm, wqym, wxzzz],
    [((vA4, vB4), some (0, 0)), ((vB4, vA4), some (0, 0)),
     ((vA4, vC4), none), ((vC4, vA4), none),
     ((vB4, vC4), some (1, 0)), ((vC4, vB4), some (0, 1))]⟩

def dIdem : Domains := enforce_node_consistency pIdem (fun _ => pIdem.words)

def idemRun1 : Domains × Queue × Option Bool := ac3 pIdem 30 dIdem none

def idemRun2 : Domains × Queue × Option Bool := ac3 pIdem 30 idemRun1.1 none

/-- The AC-3 loop as claim C5 describes it: pop the first arc (x, y) and call
revise; a revision emptying the domain of x returns failure at once; a
revision leaving it non-empty continues with a queue holding the remaining
arcs together with (x, n) for every neighbor n of x other than y (only the
arcs held are constrained, not their arrangement); no revision continues with
the remaining arcs; an empty queue returns success. -/
inductive AC3Spec (c : Puzzle) : Domains → List (Var × Var) → Domains → Bool → Prop where
  | done (d : Domains) : AC3Spec c d [] d true
  | emptied (d : Domains) (x y : Var) (rest : List (Var × Var)) :
      (revise c d x y).2 = true → (revise c d x y).1 x = [] →
      AC3Spec c d ((x, y) :: rest) (revise c d x y).1 false
  | requeue (d : Domains) (x y : Var) (rest q2 : List (Var × Var)) (df : Domains) (b : Bool) :
      (revise c d x y).2 = true → (revise c d x y).1 x ≠ [] →
      (∀ p, p ∈ q2 ↔ p ∈ rest ∨ ∃ n, n ∈ neighbors c x ∧ n ≠ y ∧ p = (x, n)) →
      AC3Spec c ((revise c d x y).1) q2 df b →
      AC3Spec c d ((x, y) :: rest) df b
  | skip (d : Domains) (x y : Var) (rest : List (Var × Var)) (df : Domains) (b : Bool) :
      (revise c d x y).2 = false →
      AC3Spec c ((revise c d x y).1) rest df b →
      AC3Spec c d ((x, y) :: rest) df b

theorem wElem_iff (w : Word) (l : List Word) : wElem w l = true ↔ w ∈ l := by
  induction l with
  | nil => simp [wElem]
  | cons w2 rest ih =>
    simp only [wElem]
    by_cases h : w2 = w
    · simp [h]
    · simp only [if_neg h, ih, List.mem_cons]
      exact ⟨Or.inr, fun hc => hc.elim (fun he => absurd he.symm h) id⟩

theorem hasMatch_eq_any (xv : Word) (xi yi : Nat) (l : List Word) :
    hasMatch xv xi yi l = l.any (fun yv => charAt xv xi == charAt yv yi) := by
  induction l with
  | nil => rfl
  | cons yv rest ih =>
    simp only [hasMatch, List.any_cons]
    by_cases h : charAt xv xi = charAt yv yi
    · simp [h]
    · have hb : (charAt xv xi == charAt yv yi) = false := beq_eq_false_iff_ne.mpr h
      simp [if_neg h, ih, hb]

/-- C1 (code_bug): on pFail the initial ac3 run empties a domain and returns
False, yet solve - whose body never inspects that Boolean - still reduces to
the backtrack call on the post-ac3 store, and only that backtrack call
produces the final None. -/
theorem c1_solve_calls_backtrack_despite_ac3_failure :
    (ac3 pFail 20 dFail none).2.2 = some false
    ∧ solve pFail 0 20 = backtrack pFail 0 20 [] (ac3 pFail 20 dFail none).1
    ∧ solveResult pFail 0 20 = .ok none :=
  ⟨rfl, rfl, rfl⟩

/-- C2 (code_bug): on puzzle pKey with domain store dKey and the empty
assignment, backtrack reaches the inference step at the unassigned singleton
slot vYq, the ac3 call seeded with that slot's arcs fails, and the del of the
never-bound key raises KeyError, aborting the search instead of discarding a
binding and continuing. -/
theorem c2_inference_failure_raises_keyerror :
    (ac3 pKey 20 dKey (some [((vYq, vXq), some (0, 0))])).2.2 = some false
    ∧ backtrack pKey 0 20 [] dKey = .error .keyError :=
  ⟨rfl, rfl⟩

/-- C4 (code_bug): on pIdem the first default-queue ac3 run succeeds and
leaves qb in the first slot's domain; the second run, started on the
resulting store, also succeeds but removes qb - so the second run does
perform a removal and ac3 is not idempotent. -/
theorem c4_ac3_not_idempotent :
    idemRun1.2.2 = some true
    ∧ wElem wqb (idemRun1.1 vA4) = true
    ∧ idemRun2.2.2 = some true
    ∧ wElem wqb (idemRun2.1 vA4) = false :=
  ⟨rfl, rfl, rfl, rfl⟩

/-- C9 counterexample: on the one-slot length-4 puzzle with vocabulary
FOUR, FIVE iterated in the order FIVE, FOUR, solve binds the slot to FIVE,
not FOUR. -/
theorem c9_counterexample :
    solveResult pOneB 0 20 = .ok (some [(vFour, wFIVE)]) ∧ wFIVE ≠ wFOUR :=
  ⟨rfl, by decide⟩

/-- C9 amended: both FOUR and FIVE have length 4 and satisfy every
constraint of the one-slot puzzle, so solve binds the slot to whichever word
the vocabulary set happens to iterate first: FOUR for iteration order
FOUR, FIVE and FIVE for iteration order FIVE, FOUR. -/
theorem c9_amended_first_word_wins :
    solveResult pOneA 0 20 = .ok (some [(vFour, wFOUR)])
    ∧ solveResult pOneB 0 20 = .ok (some [(vFour, wFIVE)])
    ∧ wFOUR.length = vFour.length ∧ wFIVE.length = vFour.length :=
  ⟨rfl, rfl, rfl, rfl⟩

/-- C7: revise(x, y) never mutates the domain of y, nor of any slot other
than x. -/
theorem c7_revise_frame (c : Puzzle) (d : Domains) (x y : Var) (h : y ≠ x) :
    (revise c d x y).1 y = d y ∧ ∀ z, z ≠ x → (revise c d x y).1 z = d z := by
  have hz : ∀ z, z ≠ x → (revise c d x y).1 z = d z := by
    intro z hzx
    cases hov : overlaps c x y with
    | none => simp [revise, hov]
    | some idx => simp [revise, hov, updD, hzx]
  exact ⟨hz y h, hz⟩

theorem c7_witness :
    (revise pKey dKey vYq vXq).1 vXq = dKey vXq
    ∧ ∀ z, z ≠ vYq → (revise pKey dKey vYq vXq).1 z = dKey z :=
  c7_revise_frame pKey dKey vYq vXq (by decide)

theorem revise_domain_at_x (c : Puzzle) (d : Domains) (x y : Var) (xi yi : Nat)
    (hov : overlaps c x y = some (xi, yi)) :
    (revise c d x y).1 x
      = (d x).filter (fun w => (d y).any (fun w2 => charAt w xi == charAt w2 yi)) := by
  simp only [revise, hov, updD, if_pos rfl]
  apply List.filter_congr
  intro w hw
  cases hm : hasMatch w xi yi (d y) with
  | true =>
    have hnot : wElem w ((d x).filter (fun xv => !(hasMatch xv xi yi (d y)))) = false := by
      rw [Bool.eq_false_iff]
      intro hc
      have := (List.mem_filter.mp ((wElem_iff _ _).mp hc)).2
      rw [hm] at this
      exact absurd this (by simp)
    rw [hnot, hasMatch_eq_any] at *
    simp [hm]
  | false =>
    have hmem : wElem w ((d x).filter (fun xv => !(hasMatch xv xi yi (d y)))) = true := by
      rw [wElem_iff, List.mem_filter]
      exact ⟨hw, by simp [hm]⟩
    rw [hmem, ← hasMatch_eq_any, hm]
    decide

theorem revise_flag_iff (c : Puzzle) (d : Domains) (x y : Var) (xi yi : Nat)
    (hov : overlaps c x y = some (xi, yi)) :
    ((revise c d x y).2 = true ↔ ∃ w ∈ d x, ∀ w2 ∈ d y, charAt w xi ≠ charAt w2 yi) := by
  simp only [revise, hov]
  rw [Bool.not_eq_eq_eq_not, Bool.not_true, ← Bool.not_eq_true, Bool.not_eq_true,
    List.isEmpty_eq_false_iff_exists_mem]
  constructor
  · rintro ⟨w, hw⟩
    have := List.mem_filter.mp hw
    refine ⟨w, this.1, fun w2 hw2 heq => ?_⟩
    have hfalse : hasMatch w xi yi (d y) = false := by
      revert this; cases hasMatch w xi yi (d y) <;> simp
    rw [hasMatch_eq_any, List.any_eq_false] at hfalse
    exact absurd (by simpa using heq) (by simpa using hfalse w2 hw2)
  · rintro ⟨w, hw, hall⟩
    refine ⟨w, List.mem_filter.mpr ⟨hw, ?_⟩⟩
    have : hasMatch w xi yi (d y) = false := by
      rw [hasMatch_eq_any, List.any_eq_false]
      intro w2 hw2
      exact fun hb => hall w2 hw2 (eq_of_beq hb)
    simp [this]

/-- C6: with a defined overlap (i, j), revise(x, y) keeps in the domain of x
exactly the words having some partner in the current domain of y agreeing at
the overlap - removing exactly the unsupported ones - and returns true iff at
least one word was removed; with no overlap it changes nothing and returns
false. -/
theorem c6_revise_contract (c : Puzzle) (d : Domains) (x y : Var) :
    (∀ xi yi, overlaps c x y = some (xi, yi) →
      ((revise c d x y).1 x
          = (d x).filter (fun w => (d y).any (fun w2 => charAt w xi == charAt w2 yi))
        ∧ ((revise c d x y).2 = true ↔ ∃ w ∈ d x, ∀ w2 ∈ d y, charAt w xi ≠ charAt w2 yi)))
    ∧ (overlaps c x y = none → revise c d x y = (d, false)) := by
  refine ⟨fun xi yi hov => ⟨revise_domain_at_x c d x y xi yi hov,
    revise_flag_iff c d x y xi yi hov⟩, fun hov => ?_⟩
  simp [revise, hov]

theorem c6_witness :
    ((revise pKey dKey vYq vXq).1 vYq
        = (dKey vYq).filter (fun w => (dKey vXq).any (fun w2 => charAt w 0 == charAt w2 0))
      ∧ ((revise pKey dKey vYq vXq).2 = true
          ↔ ∃ w ∈ dKey vYq, ∀ w2 ∈ dKey vXq, charAt w 0 ≠ charAt w2 0)) :=
  (c6_revise_contract pKey dKey vYq vXq).1 0 0 rfl

theorem revise_mono (c : Puzzle) (d : Domains) (x y v : Var) (w : Word)
    (h : w ∈ (revise c d x y).1 v) : w ∈ d v := by
  cases hov : overlaps c x y with
  | none => rw [revise, hov] at h; exact h
  | some idx =>
    rw [revise, hov] at h
    simp only [updD] at h
    by_cases hv : v = x
    · rw [if_pos hv] at h
      subst hv
      exact (List.mem_filter.mp h).1
    · rwa [if_neg hv] at h

theorem ac3Loop_mono (c : Puzzle) :
    ∀ (fuel : Nat) (d : Domains) (q : Queue) (v : Var) (w : Word),
      w ∈ (ac3Loop c fuel d q).1 v → w ∈ d v := by
  intro fuel
  induction fuel with
  | zero => intro d q v w h; exact h
  | succ fuel ih =>
    intro d q v w h
    match q with
    | [] => exact h
    | (xy, ov) :: rest =>
      rw [ac3Loop] at h
      by_cases hr : (revise c d xy.1 xy.2).2
      · rw [if_pos hr] at h
        by_cases he : ((revise c d xy.1 xy.2).1 xy.1).isEmpty
        · rw [if_pos he] at h
          exact revise_mono c d xy.1 xy.2 v w h
        · rw [if_neg he] at h
          exact revise_mono c d xy.1 xy.2 v w (ih _ _ v w h)
      · rw [if_neg hr] at h
        exact revise_mono c d xy.1 xy.2 v w (ih _ _ v w h)

/-- C8: every propagation operation only shrinks domains - after
enforce_node_consistency, revise, or ac3 (with either a default or an
explicit arc queue), each slot's domain is a subset of the domain it had
before the operation. -/
theorem c8_domains_monotone :
    (∀ (c : Puzzle) (d : Domains) (v : Var) (w : Word),
      w ∈ enforce_node_consistency c d v → w ∈ d v)
    ∧ (∀ (c : Puzzle) (d : Domains) (x y v : Var) (w : Word),
      w ∈ (revise c d x y).1 v → w ∈ d v)
    ∧ (∀ (c : Puzzle) (fuel : Nat) (d : Domains) (arcs : Option Queue) (v : Var) (w : Word),
      w ∈ (ac3 c fuel d arcs).1 v → w ∈ d v) := by
  refine ⟨fun c d v w h => ?_, revise_mono, fun c fuel d arcs v w h => ?_⟩
  · rw [enforce_node_consistency] at h
    by_cases hv : v ∈ c.vars
    · rw [if_pos hv] at h
      exact (List.mem_filter.mp h).1
    · rwa [if_neg hv] at h
  · cases arcs with
    | none => exact ac3Loop_mono c fuel d _ v w h
    | some q => exact ac3Loop_mono c fuel d q v w h

theorem c8_witness :
    wFOUR ∈ (fun _ => pOneA.words : Domains) vFour
    ∧ wab ∈ dKey vXq
    ∧ wpa ∈ dIdem vA4 :=
  ⟨c8_domains_monotone.1 pOneA (fun _ => pOneA.words) vFour wFOUR (by decide),
   c8_domains_monotone.2.1 pKey dKey vYq vXq vXq wab (by decide),
   c8_domains_monotone.2.2 pIdem 30 dIdem none vA4 wpa (by decide)⟩

theorem ac3Loop_true_queue_empty (c : Puzzle) :
    ∀ (fuel : Nat) (d : Domains) (q : Queue) (d2 : Domains) (q2 : Queue),
      ac3Loop c fuel d q = (d2, q2, some true) → q2 = [] := by
  intro fuel
  induction fuel with
  | zero =>
    intro d q d2 q2 h
    rw [ac3Loop] at h
    have hc : (none : Option Bool) = some true := congrArg (fun t => t.2.2) h
    exact absurd hc (by simp)
  | succ fuel ih =>
    intro d q d2 q2 h
    match q with
    | [] =>
      rw [ac3Loop] at h
      exact (congrArg (fun t => t.2.1) h).symm
    | (xy, ov) :: rest =>
      rw [ac3Loop] at h
      by_cases hr : (revise c d xy.1 xy.2).2
      · rw [if_pos hr] at h
        by_cases he : ((revise c d xy.1 xy.2).1 xy.1).isEmpty
        · rw [if_pos he] at h
          have : (some false : Option Bool) = some true := congrArg (fun t => t.2.2) h
          simp at this
        · rw [if_neg he] at h
          exact ih _ _ d2 q2 h
      · rw [if_neg hr] at h
        exact ih _ _ d2 q2 h

/-- C10: when ac3 is called with an explicitly supplied arc queue and returns
True, the queue the caller handed over has been drained to empty - the loop
pops every arc it processes and only exits successfully once the mapping
holds no arcs at all. -/
theorem c10_success_empties_caller_queue (c : Puzzle) (fuel : Nat) (d : Domains) (q : Queue)
    (d2 : Domains) (q2 : Queue) (h : ac3 c fuel d (some q) = (d2, q2, some true)) :
    q2 = [] :=
  ac3Loop_true_queue_empty c fuel d q d2 q2 h

theorem c10_witness :
    (ac3 pRest 20 dRest (some [((vY3, vX3), some (0, 0))])).2.1 = [] :=
  c10_success_empties_caller_queue pRest 20 dRest [((vY3, vX3), some (0, 0))] _ _ rfl

theorem pairsLookup_isSome_mem (x y : Var) (q : Queue)
    (h : (pairsLookup x y q).isSome) : (x, y) ∈ q.map Prod.fst := by
  induction q with
  | nil => simp [pairsLookup] at h
  | cons kv rest ih =>
    obtain ⟨k, v⟩ := kv
    rw [pairsLookup] at h
    by_cases hk : k = (x, y)
    · simp [hk]
    · rw [if_neg hk] at h
      simpa using Or.inr (ih h)

theorem qInsert_keys (q : Queue) (k : Var × Var) (v : Option (Nat × Nat)) (p : Var × Var) :
    p ∈ (qInsert q k v).map Prod.fst ↔ p ∈ q.map Prod.fst ∨ p = k := by
  rw [qInsert]
  by_cases hs : (pairsLookup k.1 k.2 q).isSome
  · rw [if_pos hs]
    have hkeys : (q.map (fun kv => if kv.1 = k then (k, v) else kv)).map Prod.fst
        = q.map Prod.fst := by
      rw [List.map_map]
      apply List.map_congr_left
      intro kv _
      by_cases hk : kv.1 = k
      · simp [hk]
      · simp [hk]
    rw [hkeys]
    have hmem : k ∈ q.map Prod.fst := by
      have h2 := pairsLookup_isSome_mem k.1 k.2 q hs
      simpa using h2
    exact ⟨Or.inl, fun hp => hp.elim id (fun he => he ▸ hmem)⟩
  · rw [if_neg hs]
    simp

theorem foldl_qInsert_keys (x : Var) (ov : Var → Option (Nat × Nat)) (p : Var × Var) :
    ∀ (ns : List Var) (q : Queue),
      p ∈ ((ns.foldl (fun acc n => qInsert acc (x, n) (ov n)) q).map Prod.fst)
        ↔ p ∈ q.map Prod.fst ∨ ∃ n ∈ ns, p = (x, n) := by
  intro ns
  induction ns with
  | nil => simp
  | cons n rest ih =>
    intro q
    rw [List.foldl_cons, ih, qInsert_keys]
    simp only [List.mem_cons]
    constructor
    · rintro ((hq | hp) | ⟨m, hm, hp⟩)
      · exact Or.inl hq
      · exact Or.inr ⟨n, Or.inl rfl, hp⟩
      · exact Or.inr ⟨m, Or.inr hm, hp⟩
    · rintro (hq | ⟨m, (hm | hm), hp⟩)
      · exact Or.inl (Or.inl hq)
      · exact Or.inl (Or.inr (hm ▸ hp))
      · exact Or.inr ⟨m, hm, hp⟩

theorem ac3Loop_spec (c : Puzzle) :
    ∀ (fuel : Nat) (d : Domains) (q : Queue) (d2 : Domains) (q2 : Queue) (b : Bool),
      ac3Loop c fuel d q = (d2, q2, some b) → AC3Spec c d (q.map Prod.fst) d2 b := by
  intro fuel
  induction fuel with
  | zero =>
    intro d q d2 q2 b h
    rw [ac3Loop] at h
    have hc : (none : Option Bool) = some b := congrArg (fun t => t.2.2) h
    exact absurd hc (by simp)
  | succ fuel ih =>
    intro d q d2 q2 b h
    match q with
    | [] =>
      rw [ac3Loop] at h
      have hb : true = b := Option.some.inj (congrArg (fun t => t.2.2) h)
      have hd : d = d2 := congrArg (fun t => t.1) h
      subst hb
      exact hd ▸ AC3Spec.done d
    | (xy, ov) :: rest =>
      rw [ac3Loop] at h
      by_cases hr : (revise c d xy.1 xy.2).2
      · rw [if_pos hr] at h
        by_cases he : ((revise c d xy.1 xy.2).1 xy.1).isEmpty
        · rw [if_pos he] at h
          have hb : false = b := Option.some.inj (congrArg (fun t => t.2.2) h)
          have hd : (revise c d xy.1 xy.2).1 = d2 := congrArg (fun t => t.1) h
          subst hb
          have hnil : (revise c d xy.1 xy.2).1 xy.1 = [] := by
            simpa [List.isEmpty_iff] using he
          exact hd ▸ AC3Spec.emptied d xy.1 xy.2 (rest.map Prod.fst) hr hnil
        · rw [if_neg he] at h
          have hnil : (revise c d xy.1 xy.2).1 xy.1 ≠ [] := by
            simpa [List.isEmpty_iff] using he
          refine AC3Spec.requeue d xy.1 xy.2 (rest.map Prod.fst) _ d2 b hr hnil
            (fun p => ?_) (ih _ _ d2 q2 b h)
          rw [foldl_qInsert_keys]
          constructor
          · rintro (hp | ⟨n, hn, hp⟩)
            · exact Or.inl hp
            · have hn2 := List.mem_filter.mp hn
              refine Or.inr ⟨n, hn2.1, ?_, hp⟩
              simpa using hn2.2
          · rintro (hp | ⟨n, hn, hne, hp⟩)
            · exact Or.inl hp
            · refine Or.inr ⟨n, List.mem_filter.mpr ⟨hn, by simpa using hne⟩, hp⟩
      · rw [if_neg hr] at h
        have hr2 : (revise c d xy.1 xy.2).2 = false := by
          revert hr; cases (revise c d xy.1 xy.2).2 <;> simp
        exact AC3Spec.skip d xy.1 xy.2 (rest.map Prod.fst) d2 b hr2 (ih _ _ d2 q2 b h)

/-- C5: whenever ac3 terminates (with either an explicitly supplied queue or
the default all-arcs queue), its run is described by AC3Spec: it repeatedly
pops an arc (x, y) and calls revise(x, y); a revision that empties the domain
of x makes it return False immediately; a revision that leaves it non-empty
enqueues the arc (x, n) for every neighbor n of x other than y; and it
returns True exactly when the queue empties without any domain having been
emptied. -/
theorem c5_ac3_follows_description :
    (∀ (c : Puzzle) (fuel : Nat) (d : Domains) (q : Queue) (d2 : Domains) (q2 : Queue) (b : Bool),
      ac3 c fuel d (some q) = (d2, q2, some b) → AC3Spec c d (q.map Prod.fst) d2 b)
    ∧ (∀ (c : Puzzle) (fuel : Nat) (d : Domains) (d2 : Domains) (q2 : Queue) (b : Bool),
      ac3 c fuel d none = (d2, q2, some b) → AC3Spec c d (c.overlapPairs.map Prod.fst) d2 b) :=
  ⟨fun c fuel d q => ac3Loop_spec c fuel d q,
   fun c fuel d => ac3Loop_spec c fuel d c.overlapPairs⟩

theorem c5_witness :
    AC3Spec pFail dFail (pFail.overlapPairs.map Prod.fst) (ac3 pFail 20 dFail none).1 false :=
  c5_ac3_follows_description.2 pFail 20 dFail _ _ _ rfl

theorem aLookup_setMap (a : Assignment) (k k2 : Var) (w : Word) (h : k2 ≠ k) :
    aLookup (a.map (fun kv => if kv.1 = k then (k, w) else kv)) k2 = aLookup a k2 := by
  induction a with
  | nil => rfl
  | cons kv rest ih =>
    rw [List.map_cons]
    by_cases hk : kv.1 = k
    · rw [if_pos hk]
      show (if k = k2 then some w else _) = (if kv.1 = k2 then some kv.2 else _)
      rw [if_neg (fun he => h he.symm), if_neg (fun he => h (hk ▸ he).symm)]
      exact ih
    · rw [if_neg hk]
      show (if kv.1 = k2 then some kv.2 else _) = (if kv.1 = k2 then some kv.2 else _)
      by_cases hk2 : kv.1 = k2
      · rw [if_pos hk2, if_pos hk2]
      · rw [if_neg hk2, if_neg hk2]
        exact ih

theorem aLookup_append_single (a : Assignment) (k k2 : Var) (w : Word) (h : k2 ≠ k) :
    aLookup (a ++ [(k, w)]) k2 = aLookup a k2 := by
  induction a with
  | nil =>
    show (if k = k2 then some w else aLookup [] k2) = none
    rw [if_neg (fun he => h he.symm)]
    rfl
  | cons kv rest ih =>
    show (if kv.1 = k2 then some kv.2 else _) = (if kv.1 = k2 then some kv.2 else _)
    by_cases hk2 : kv.1 = k2
    · rw [if_pos hk2, if_pos hk2]
    · rw [if_neg hk2, if_neg hk2]
      exact ih

theorem aLookup_aInsert_ne (a : Assignment) (k k2 : Var) (w : Word) (h : k2 ≠ k) :
    aLookup (aInsert a k w) k2 = aLookup a k2 := by
  rw [aInsert]
  by_cases hm : aMem a k
  · rw [if_pos hm]
    exact aLookup_setMap a k k2 w h
  · rw [if_neg hm]
    exact aLookup_append_single a k k2 w h

theorem aLookup_setMap_self (a : Assignment) (k : Var) (w : Word) (hm : aMem a k = true) :
    aLookup (a.map (fun kv => if kv.1 = k then (k, w) else kv)) k = some w := by
  induction a with
  | nil => exact absurd hm (by simp [aMem, aLookup])
  | cons kv rest ih =>
    rw [List.map_cons]
    by_cases hk : kv.1 = k
    · rw [if_pos hk]
      show (if k = k then some w else _) = some w
      rw [if_pos rfl]
    · rw [if_neg hk]
      show (if kv.1 = k then some kv.2 else _) = some w
      rw [if_neg hk]
      apply ih
      have : aLookup (kv :: rest) k = aLookup rest k := by
        show (if kv.1 = k then some kv.2 else aLookup rest k) = aLookup rest k
        rw [if_neg hk]
      rw [aMem, this] at hm
      exact hm

theorem aLookup_append_single_self (a : Assignment) (k : Var) (w : Word)
    (hm : aMem a k = false) :
    aLookup (a ++ [(k, w)]) k = some w := by
  induction a with
  | nil =>
    show (if k = k then some w else _) = some w
    rw [if_pos rfl]
  | cons kv rest ih =>
    by_cases hk : kv.1 = k
    · exfalso
      have : aLookup (kv :: rest) k = some kv.2 := by
        show (if kv.1 = k then some kv.2 else _) = some kv.2
        rw [if_pos hk]
      rw [aMem, this] at hm
      exact absurd hm (by simp)
    · show (if kv.1 = k then some kv.2 else _) = some w
      rw [if_neg hk]
      apply ih
      have : aLookup (kv :: rest) k = aLookup rest k := by
        show (if kv.1 = k then some kv.2 else aLookup rest k) = aLookup rest k
        rw [if_neg hk]
      rw [aMem, this] at hm
      exact hm

theorem aLookup_aInsert_self (a : Assignment) (k : Var) (w : Word) :
    aLookup (aInsert a k w) k = some w := by
  rw [aInsert]
  by_cases hm : aMem a k
  · rw [if_pos hm]
    exact aLookup_setMap_self a k w hm
  · rw [if_neg hm]
    exact aLookup_append_single_self a k w (by revert hm; cases aMem a k <;> simp)

theorem aLookup_aErase_ne (a : Assignment) (k k2 : Var) (h : k2 ≠ k) :
    aLookup (aErase a k) k2 = aLookup a k2 := by
  induction a with
  | nil => rfl
  | cons kv rest ih =>
    rw [aErase, List.filter_cons]
    by_cases hk : kv.1 = k
    · rw [if_neg (by simp [hk])]
      rw [aErase] at ih
      rw [ih]
      show _ = (if kv.1 = k2 then some kv.2 else _)
      rw [if_neg (fun he => h (hk ▸ he).symm)]
    · rw [if_pos (by simp [hk])]
      show (if kv.1 = k2 then some kv.2 else _) = (if kv.1 = k2 then some kv.2 else _)
      by_cases hk2 : kv.1 = k2
      · rw [if_pos hk2, if_pos hk2]
      · rw [if_neg hk2, if_neg hk2]
        rw [aErase] at ih
        exact ih

theorem aLookup_aErase_self (a : Assignment) (k : Var) :
    aLookup (aErase a k) k = none := by
  induction a with
  | nil => rfl
  | cons kv rest ih =>
    rw [aErase, List.filter_cons]
    by_cases hk : kv.1 = k
    · rw [if_neg (by simp [hk])]
      rw [aErase] at ih
      exact ih
    · rw [if_pos (by simp [hk])]
      show (if kv.1 = k then some kv.2 else _) = none
      rw [if_neg hk]
      rw [aErase] at ih
      exact ih

theorem pyDel_ok (a : Assignment) (k : Var) (a2 : Assignment) (h : pyDel a k = .ok a2) :
    a2 = aErase a k := by
  rw [pyDel] at h
  by_cases hm : aMem a k
  · rw [if_pos hm] at h
    exact (Except.ok.inj h).symm
  · rw [if_neg hm] at h
    exact absurd h (by simp)

theorem aLookup_foldl_aInsert_ne (v k : Var) (h : k ≠ v) :
    ∀ (ws : List Word) (a : Assignment),
      aLookup (ws.foldl (fun a2 w => aInsert a2 v w) a) k = aLookup a k := by
  intro ws
  induction ws with
  | nil => intro a; rfl
  | cons w ws ih =>
    intro a
    rw [List.foldl_cons, ih, aLookup_aInsert_ne a v k w h]

theorem inferLoop_preserves (c : Puzzle) (fuel : Nat) :
    ∀ (vs : List Var) (a : Assignment) (d : Domains) (a2 : Assignment) (d2 : Domains),
      inferLoop c fuel vs a d = .ok (a2, d2) →
      ∀ (k : Var) (w : Word), aLookup a k = some w → aLookup a2 k = some w := by
  intro vs
  induction vs with
  | nil =>
    intro a d a2 d2 h k w hk
    rw [inferLoop] at h
    simp only [Except.ok.injEq, Prod.mk.injEq] at h
    rw [← h.1]
    exact hk
  | cons v rest ih =>
    intro a d a2 d2 h k w hk
    rw [inferLoop] at h
    split at h
    case isTrue hcond =>
      have hmem : aMem a v = false := by
        have := (Bool.and_eq_true _ _).mp hcond
        revert this
        cases aMem a v <;> simp
      have hkv : k ≠ v := by
        intro he
        rw [he] at hk
        rw [aMem, hk] at hmem
        exact absurd hmem (by simp)
      simp only [] at h
      cases hr : (ac3 c fuel d (some ((neighbors c v).map (fun n => ((v, n), overlaps c v n))))).2.2 with
      | none =>
        rw [hr] at h
        exact absurd h (by simp)
      | some b =>
        rw [hr] at h
        cases b with
        | true =>
          simp only [] at h
          refine ih _ _ a2 d2 h k w ?_
          rw [aLookup_foldl_aInsert_ne v k hkv]
          exact hk
        | false =>
          rw [pyDel, if_neg (by simp [hmem])] at h
          exact absurd h (by simp)
    case isFalse hcond =>
      exact ih _ _ a2 d2 h k w hk

theorem insertAsc_mem {α : Type} (key : α → Nat) (x e : α) :
    ∀ (l : List α), x ∈ insertAsc key e l ↔ x = e ∨ x ∈ l := by
  intro l
  induction l with
  | nil => simp [insertAsc]
  | cons y ys ih =>
    rw [insertAsc]
    by_cases h : key y ≤ key e
    · rw [if_pos h]
      simp only [List.mem_cons, ih]
      tauto
    · rw [if_neg h]
      simp only [List.mem_cons]

theorem insertDesc_mem {α : Type} (key : α → Nat) (x e : α) :
    ∀ (l : List α), x ∈ insertDesc key e l ↔ x = e ∨ x ∈ l := by
  intro l
  induction l with
  | nil => simp [insertDesc]
  | cons y ys ih =>
    rw [insertDesc]
    by_cases h : key e ≤ key y
    · rw [if_pos h]
      simp only [List.mem_cons, ih]
      tauto
    · rw [if_neg h]
      simp only [List.mem_cons]

theorem sortAsc_mem {α : Type} (key : α → Nat) (x : α) :
    ∀ (l acc : List α),
      x ∈ l.foldl (fun acc2 e => insertAsc key e acc2) acc ↔ x ∈ acc ∨ x ∈ l := by
  intro l
  induction l with
  | nil => intro acc; simp
  | cons e es ih =>
    intro acc
    rw [List.foldl_cons, ih, insertAsc_mem]
    simp only [List.mem_cons]
    tauto

theorem sortDesc_mem {α : Type} (key : α → Nat) (x : α) :
    ∀ (l acc : List α),
      x ∈ l.foldl (fun acc2 e => insertDesc key e acc2) acc ↔ x ∈ acc ∨ x ∈ l := by
  intro l
  induction l with
  | nil => intro acc; simp
  | cons e es ih =>
    intro acc
    rw [List.foldl_cons, ih, insertDesc_mem]
    simp only [List.mem_cons]
    tauto

theorem firstEq_eq (v : Var) :
    ∀ (l : List Var) (u : Var), firstEq v l = some u → u = v := by
  intro l
  induction l with
  | nil => intro u h; exact absurd h (by simp [firstEq])
  | cons x xs ih =>
    intro u h
    rw [firstEq] at h
    by_cases hx : x = v
    · rw [if_pos hx] at h
      rw [← Option.some.inj h, hx]
    · rw [if_neg hx] at h
      exact ih u h

theorem headOpt_mem {α : Type} (l : List α) (x : α) (h : l.head? = some x) : x ∈ l := by
  cases l with
  | nil => exact absurd h (by simp)
  | cons y ys =>
    rw [List.head?_cons] at h
    rw [← Option.some.inj h]
    exact List.mem_cons_self y ys

theorem select_unassigned_lookup_none (c : Puzzle) (rnd : Nat) (a : Assignment) (d : Domains)
    (v : Var) (h : select_unassigned_variable c rnd a d = some v) : aLookup a v = none := by
  have hent : ∀ e ∈ (c.vars.filter (fun u => !(aMem a u))).map
      (fun u => (u, (d u).length, (neighbors c u).length)), aMem a e.1 = false := by
    intro e he
    obtain ⟨u, hu, hue⟩ := List.mem_map.mp he
    have h2 := (List.mem_filter.mp hu).2
    rw [← hue]
    simpa using h2
  suffices hm : aMem a v = false by
    revert hm
    rw [aMem]
    cases aLookup a v <;> simp
  rw [select_unassigned_variable] at h
  simp only [] at h
  split at h
  case h_1 => exact absurd h (by simp)
  case h_2 first tail hsorted =>
    have hsortmem : ∀ e, e ∈ first :: tail → aMem a e.1 = false := by
      intro e he
      rw [← hsorted] at he
      rw [sortAsc] at he
      have he2 := (sortAsc_mem (fun e => e.2.1) e _ []).mp he
      simp only [List.not_mem_nil, false_or] at he2
      exact hent e he2
    split at h
    case isTrue =>
      have hv : first.1 = v := Option.some.inj h
      rw [← hv]
      exact hsortmem first (List.mem_cons_self _ _)
    case isFalse =>
      split at h
      case h_1 => exact absurd h (by simp)
      case h_2 f2 tail2 hsorted2 =>
        rw [hsorted2] at h
        have hdegmem : ∀ u, u ∈ ((f2 :: tail2).filter
            (fun e => e.2.2 == f2.2.2)).map (fun e => e.1) → aMem a u = false := by
          intro u hu
          obtain ⟨e, he, hue⟩ := List.mem_map.mp hu
          have he2 : e ∈ f2 :: tail2 := (List.mem_filter.mp he).1
          rw [← hsorted2] at he2
          rw [sortDesc] at he2
          have he3 := (sortDesc_mem (fun e => e.2.2) e _ []).mp he2
          simp only [List.not_mem_nil, false_or] at he3
          have he4 := List.take_subset _ _ he3
          rw [sortAsc] at he4
          have he5 := (sortAsc_mem (fun e => e.2.1) e _ []).mp he4
          simp only [List.not_mem_nil, false_or] at he5
          rw [← hue]
          exact hent e he5
        split at h
        case isTrue =>
          split at h
          case h_1 v0 hget =>
            have hv0 := List.get?_mem hget
            split at h
            case h_1 u hfe =>
              have hu : u = v := Option.some.inj h
              have huv0 : u = v0 := firstEq_eq v0 c.vars u hfe
              rw [← hu, huv0]
              exact hdegmem v0 hv0
            case h_2 =>
              exact hdegmem v (headOpt_mem _ v h)
          case h_2 =>
            exact hdegmem v (headOpt_mem _ v h)
        case isFalse =>
          exact hdegmem v (headOpt_mem _ v h)

theorem valueLoopF_preserves (c : Puzzle) (fuel : Nat)
    (bt : Assignment → Domains → Except PyErr (Option Assignment × Assignment × Domains))
    (hbt : ∀ (a : Assignment) (d : Domains) (res : Option Assignment) (a2 : Assignment)
      (d2 : Domains), bt a d = .ok (res, a2, d2) →
      ∀ (k : Var) (w : Word), aLookup a k = some w → aLookup a2 k = some w)
    (var : Var) :
    ∀ (ws : List Word) (a : Assignment) (d : Domains) (res : Option Assignment)
      (a2 : Assignment) (d2 : Domains),
      aLookup a var = none →
      valueLoopF c fuel bt var ws a d = .ok (res, a2, d2) →
      ∀ (k : Var) (w : Word), aLookup a k = some w → aLookup a2 k = some w := by
  intro ws
  induction ws with
  | nil =>
    intro a d res a2 d2 hvar h k w hk
    rw [valueLoopF] at h
    simp only [Except.ok.injEq, Prod.mk.injEq] at h
    rw [← h.2.1]
    exact hk
  | cons wv ws ih =>
    intro a d res a2 d2 hvar h k w hk
    have hkv : k ≠ var := by
      intro he
      rw [he, hvar] at hk
      exact Option.noConfusion hk
    have hk1 : aLookup (aInsert a var wv) k = some w := by
      rw [aLookup_aInsert_ne a var k wv hkv]
      exact hk
    rw [valueLoopF] at h
    split at h
    case isTrue hcons =>
      split at h
      case h_1 e hinf => exact absurd h (by simp)
      case h_2 a2x d2x hinf =>
        split at h
        case h_1 e hbteq => exact absurd h (by simp)
        case h_2 resx a3 d3 hbteq =>
          have hk3 : aLookup a3 k = some w :=
            hbt a2x d2x resx a3 d3 hbteq k w
              (inferLoop_preserves c fuel c.vars (aInsert a var wv) d a2x d2x hinf k w hk1)
          split at h
          case h_1 m =>
            split at h
            case isTrue =>
              split at h
              case h_1 a4 hdel =>
                have ha4 : a4 = aErase a3 var := pyDel_ok a3 var a4 hdel
                refine ih a4 d3 res a2 d2 ?_ h k w ?_
                · rw [ha4]
                  exact aLookup_aErase_self a3 var
                · rw [ha4, aLookup_aErase_ne a3 var k hkv]
                  exact hk3
              case h_2 e hdel => exact absurd h (by simp)
            case isFalse =>
              simp only [Except.ok.injEq, Prod.mk.injEq] at h
              rw [← h.2.1]
              exact hk3
          case h_2 =>
            split at h
            case h_1 a4 hdel =>
              have ha4 : a4 = aErase a3 var := pyDel_ok a3 var a4 hdel
              refine ih a4 d3 res a2 d2 ?_ h k w ?_
              · rw [ha4]
                exact aLookup_aErase_self a3 var
              · rw [ha4, aLookup_aErase_ne a3 var k hkv]
                exact hk3
            case h_2 e hdel => exact absurd h (by simp)
    case isFalse hcons =>
      split at h
      case h_1 a4 hdel =>
        have ha4 : a4 = aErase (aInsert a var wv) var := pyDel_ok _ var a4 hdel
        refine ih a4 d res a2 d2 ?_ h k w ?_
        · rw [ha4]
          exact aLookup_aErase_self _ var
        · rw [ha4, aLookup_aErase_ne _ var k hkv]
          exact hk1
      case h_2 e hdel => exact absurd h (by simp)

theorem backtrack_preserves (c : Puzzle) (rnd : Nat) :
    ∀ (fuel : Nat) (a : Assignment) (d : Domains) (res : Option Assignment)
      (a2 : Assignment) (d2 : Domains),
      backtrack c rnd fuel a d = .ok (res, a2, d2) →
      ∀ (k : Var) (w : Word), aLookup a k = some w → aLookup a2 k = some w := by
  intro fuel
  induction fuel with
  | zero =>
    intro a d res a2 d2 h
    rw [backtrack] at h
    exact absurd h (by simp)
  | succ fuel ih =>
    intro a d res a2 d2 h k w hk
    rw [backtrack] at h
    split at h
    case isTrue =>
      simp only [Except.ok.injEq, Prod.mk.injEq] at h
      rw [← h.2.1]
      exact hk
    case isFalse =>
      split at h
      case h_1 => exact absurd h (by simp)
      case h_2 var hsel =>
        have hvar : aLookup a var = none := select_unassigned_lookup_none c rnd a d var hsel
        exact valueLoopF_preserves c (Nat.succ fuel) (backtrack c rnd fuel)
          (fun a d res a2 d2 h => ih a d res a2 d2 h) var
          (order_domain_values c d var a) a d res a2 d2 hvar h k w hk

/-- C3 counterexample: backtrack on the empty assignment over pRest with
store dRest returns None, yet on return the assignment still holds the
binding the inference step added for vY3 - it is not restored to the (empty)
set of bindings it held at entry. -/
theorem c3_counterexample :
    btResult (backtrack pRest 0 20 [] dRest) = .ok (none, [(vY3, wab)])
    ∧ [(vY3, wab)] ≠ ([] : Assignment) :=
  ⟨rfl, by decide⟩

theorem valueLoopF_none_unbinds (c : Puzzle) (fuel : Nat)
    (bt : Assignment → Domains → Except PyErr (Option Assignment × Assignment × Domains))
    (var : Var) :
    ∀ (ws : List Word) (a : Assignment) (d : Domains) (a2 : Assignment) (d2 : Domains),
      aLookup a var = none →
      valueLoopF c fuel bt var ws a d = .ok (none, a2, d2) →
      aLookup a2 var = none := by
  intro ws
  induction ws with
  | nil =>
    intro a d a2 d2 hvar h
    rw [valueLoopF] at h
    simp only [Except.ok.injEq, Prod.mk.injEq] at h
    rw [← h.2.1]
    exact hvar
  | cons wv ws ih =>
    intro a d a2 d2 hvar h
    rw [valueLoopF] at h
    split at h
    case isTrue hcons =>
      split at h
      case h_1 e hinf => exact absurd h (by simp)
      case h_2 a2x d2x hinf =>
        split at h
        case h_1 e hbteq => exact absurd h (by simp)
        case h_2 resx a3 d3 hbteq =>
          split at h
          case h_1 m =>
            split at h
            case isTrue =>
              split at h
              case h_1 a4 hdel =>
                have ha4 : a4 = aErase a3 var := pyDel_ok a3 var a4 hdel
                refine ih a4 d3 a2 d2 ?_ h
                rw [ha4]
                exact aLookup_aErase_self a3 var
              case h_2 e hdel => exact absurd h (by simp)
            case isFalse =>
              simp only [Except.ok.injEq, Prod.mk.injEq] at h
              exact absurd h.1 (by simp)
          case h_2 =>
            split at h
            case h_1 a4 hdel =>
              have ha4 : a4 = aErase a3 var := pyDel_ok a3 var a4 hdel
              refine ih a4 d3 a2 d2 ?_ h
              rw [ha4]
              exact aLookup_aErase_self a3 var
            case h_2 e hdel => exact absurd h (by simp)
    case isFalse hcons =>
      split at h
      case h_1 a4 hdel =>
        have ha4 : a4 = aErase (aInsert a var wv) var := pyDel_ok _ var a4 hdel
        refine ih a4 d a2 d2 ?_ h
        rw [ha4]
        exact aLookup_aErase_self _ var
      case h_2 e hdel => exact absurd h (by simp)

theorem backtrack_none_unbinds_selected (c : Puzzle) (rnd fuel : Nat)
    (a : Assignment) (d : Domains) (a2 : Assignment) (d2 : Domains) (var : Var)
    (hsel : select_unassigned_variable c rnd a d = some var)
    (h : backtrack c rnd fuel a d = .ok (none, a2, d2)) :
    aLookup a2 var = none := by
  cases fuel with
  | zero =>
    rw [backtrack] at h
    exact absurd h (by simp)
  | succ fuel =>
    rw [backtrack] at h
    split at h
    case isTrue =>
      simp only [Except.ok.injEq, Prod.mk.injEq] at h
      exact absurd h.1 (by simp)
    case isFalse =>
      split at h
      case h_1 hsel2 => exact absurd h (by simp)
      case h_2 var2 hsel2 =>
        have hv : var2 = var := Option.some.inj (hsel2.symm.trans hsel)
        subst hv
        have hvar2 : aLookup a var2 = none :=
          select_unassigned_lookup_none c rnd a d var2 hsel2
        exact valueLoopF_none_unbinds c (Nat.succ fuel) (backtrack c rnd fuel) var2
          (order_domain_values c d var2 a) a d a2 d2 hvar2 h

/-- C3 amended: when backtrack(A) returns None, every binding A held at entry
is still present with its original word, and the binding the call tentatively
made for its selected slot has been removed - the slot chosen by
select_unassigned_variable is unbound on return (and since this holds for
every call, it holds at each level of the recursion); bindings added by the
inference step for other slots, however, are not removed and may remain in
A. -/
theorem c3_amended_entry_kept_selected_removed (c : Puzzle) (rnd fuel : Nat)
    (a : Assignment) (d : Domains) (a2 : Assignment) (d2 : Domains)
    (h : backtrack c rnd fuel a d = .ok (none, a2, d2)) :
    (∀ (k : Var) (w : Word), aLookup a k = some w → aLookup a2 k = some w)
    ∧ (∀ (var : Var), select_unassigned_variable c rnd a d = some var →
        aLookup a2 var = none) :=
  ⟨backtrack_preserves c rnd fuel a d none a2 d2 h,
   fun var hsel => backtrack_none_unbinds_selected c rnd fuel a d a2 d2 var hsel h⟩

theorem c3_amended_witness :
    aLookup [(vZ3, wza)] vZ3 = some wza ∧ aLookup [(vZ3, wza)] vX3 = none :=
  ⟨(c3_amended_entry_kept_selected_removed pRest 0 20 [(vZ3, wza)] dRest
      [(vZ3, wza)] dRest rfl).1 vZ3 wza rfl,
   (c3_amended_entry_kept_selected_removed pRest 0 20 [(vZ3, wza)] dRest
      [(vZ3, wza)] dRest rfl).2 vX3 rfl⟩

end CW
